import Mathlib

/-!
Shallow embedding of the code-distribution storage core (`storage.py`) and of
the front-end code extraction helper (`bot.py`).

The SQLite `codes` table is modelled as a list of rows kept in insertion
order, together with the autoincrement counter `nextId` (SQLite
AUTOINCREMENT starts at 1).  The `users` table is a list of user rows.
Timestamps (`datetime.now(timezone.utc).isoformat()` in the source) enter
each operation as an explicit `String` parameter, and SQLite's
`date(t)` on an ISO timestamp is modelled as taking the first ten
characters (`YYYY-MM-DD`).
-/

/-- A row of the `codes` table. -/
structure CodeRow where
  id : Nat
  code : String
  is_used : Nat
  uploaded_by : Int
  uploaded_at : String
  used_by : Option Int
  used_at : Option String
deriving DecidableEq

/-- A row of the `users` table. -/
structure UserRow where
  user_id : Int
  display_name : Option String
  username : Option String
  updated_at : String
deriving DecidableEq

/-- The whole database state: both tables plus the autoincrement counter. -/
structure Store where
  codes : List CodeRow
  users : List UserRow
  nextId : Nat
deriving DecidableEq

/-- The state produced by `Storage.initialize` on a fresh database file:
both tables empty, AUTOINCREMENT counter at 1. -/
def initStore : Store := ⟨[], [], 1⟩

/-- One step of order-preserving deduplication: record an element unless it
was already seen. -/
def dedupStep {α : Type} [DecidableEq α] (acc : List α) (c : α) : List α :=
  if c ∈ acc then acc else acc ++ [c]

/-- Order-preserving first-occurrence deduplication: the `seen` set plus
output list loop used in `insert_codes` (and in `_extract_codes_from_text`). -/
def dedupFirst {α : Type} [DecidableEq α] (l : List α) : List α :=
  l.foldl dedupStep []

/-- Does some row of the table already carry this code value?  This is the
UNIQUE constraint consulted by `INSERT OR IGNORE`. -/
def hasValue (rows : List CodeRow) (c : String) : Bool :=
  rows.any (fun r => r.code == c)

/-- The row created for a freshly inserted code. -/
def mkCodeRow (nid : Nat) (c : String) (u : Int) (t : String) : CodeRow :=
  ⟨nid, c, 0, u, t, none, none⟩

/-- The `INSERT OR IGNORE` loop of `insert_codes`: each candidate whose value
is not yet present is appended with the next AUTOINCREMENT id. -/
def insertLoop (u : Int) (t : String) : List String → Store → Store
  | [], s => s
  | c :: cs, s =>
    if hasValue s.codes c then insertLoop u t cs s
    else insertLoop u t cs ⟨s.codes ++ [mkCodeRow s.nextId c u t], s.users, s.nextId + 1⟩

/-- Model of `Storage.insert_codes`: dedupe the batch, `INSERT OR IGNORE` each unique
candidate, then infer the inserted count by counting rows whose
`(uploaded_at, uploaded_by)` equal this call's timestamp marker, and report
`max(len(unique) - inserted, 0)` duplicates (`Nat` subtraction truncates
exactly like the source's `max(..., 0)`). -/
def insert_codes (codes : List String) (uploaded_by : Int) (now_iso : String)
    (s : Store) : (Nat × Nat) × Store :=
  let unique_codes := dedupFirst codes
  let s2 := insertLoop uploaded_by now_iso unique_codes s
  let inserted_count :=
    s2.codes.countP (fun r => r.uploaded_at == now_iso && r.uploaded_by == uploaded_by)
  let duplicates := unique_codes.length - inserted_count
  ((inserted_count, duplicates), s2)

/-- Model of `Storage.count_unused`: `SELECT COUNT(*) FROM codes WHERE is_used = 0`. -/
def count_unused (s : Store) : Nat :=
  s.codes.countP (fun r => r.is_used == 0)

/-- Model of `SELECT id, code FROM codes WHERE is_used = 0 ORDER BY id ASC LIMIT 1`:
the unused row of minimal id, if any. -/
def minIdUnused : List CodeRow → Option CodeRow
  | [] => none
  | r :: rs =>
    let m := minIdUnused rs
    if r.is_used == 0 then
      match m with
      | none => some r
      | some m0 => if r.id ≤ m0.id then some r else some m0
    else m

/-- The row update of `UPDATE codes SET is_used = 1, used_by = ?, used_at = ?
WHERE id = ? AND is_used = 0`. -/
def markRow (u : Int) (t : String) (cid : Nat) (r : CodeRow) : CodeRow :=
  if r.id == cid && r.is_used == 0 then
    { r with is_used := 1, used_by := some u, used_at := some t }
  else r

/-- Model of `Storage.get_and_mark_next_unused`: select the minimal-id unused row,
stamp it used in the same transaction, and return its code value; `none`
with the store unchanged when no unused row exists. -/
def get_and_mark_next_unused (used_by : Int) (now_iso : String) (s : Store) :
    Option String × Store :=
  match minIdUnused s.codes with
  | none => (none, s)
  | some r =>
    (some r.code, ⟨s.codes.map (markRow used_by now_iso r.id), s.users, s.nextId⟩)

/-- Repeated sequential allocation, collecting the returned code values. -/
def allocRun (k : Nat) (u : Int) (t : String) (s : Store) : List String × Store :=
  match k with
  | 0 => ([], s)
  | k + 1 =>
    match get_and_mark_next_unused u t s with
    | (none, s1) => ([], s1)
    | (some v, s1) =>
      let r := allocRun k u t s1
      (v :: r.1, r.2)

/-- Model of `Storage.upsert_user`: `INSERT ... ON CONFLICT(user_id) DO UPDATE`. -/
def upsert_user (user_id : Int) (display_name : String) (username : Option String)
    (now_iso : String) (s : Store) : Store :=
  if s.users.any (fun u => u.user_id == user_id) then
    { s with users := s.users.map (fun u =>
        if u.user_id == user_id then ⟨user_id, some display_name, username, now_iso⟩
        else u) }
  else
    { s with users := s.users ++ [⟨user_id, some display_name, username, now_iso⟩] }

/-- Model of `LEFT JOIN users u ON u.user_id = c.used_by` (user_id is the primary
key, so at most one row matches). -/
def lookupUser (users : List UserRow) (uid : Int) : Option UserRow :=
  users.find? (fun u => u.user_id == uid)

/-- The shape of one usage-report entry: `(user_id, display_name, username, count)`. -/
abbrev UsageEntry : Type := Int × Option String × Option String × Nat

/-- The count component of a usage-report entry. -/
def entryCnt (e : UsageEntry) : Nat := e.2.2.2

/-- The user-id component of a usage-report entry. -/
def entryUid (e : UsageEntry) : Int := e.1

/-- The aggregated group row for one `used_by` value: joined display fields
(NULL when the registry has no such user) and the group's row count. -/
def usageEntry (users : List UserRow) (rows : List CodeRow) (uid : Int) : UsageEntry :=
  (uid, (lookupUser users uid).bind (fun u => u.display_name),
   (lookupUser users uid).bind (fun u => u.username),
   rows.countP (fun r => r.used_by == some uid))

/-- Ordering used for `ORDER BY cnt DESC` (SQLite's sort modelled as a
stable sort over the groups, which `GROUP BY` emits in ascending key order). -/
def cntGe (a b : UsageEntry) : Prop := entryCnt b ≤ entryCnt a

instance : DecidableRel cntGe := fun _ _ => Nat.decLe _ _

instance : IsTotal UsageEntry cntGe :=
  ⟨fun x y => (Nat.le_total (entryCnt y) (entryCnt x)).imp id id⟩

instance : IsTrans UsageEntry cntGe := ⟨fun _ _ _ h1 h2 => Nat.le_trans h2 h1⟩

/-- Model of `GROUP BY c.used_by ... ORDER BY cnt DESC` over a given set of code rows:
one entry per distinct `used_by`, groups formed in ascending user-id order,
then stably sorted by count descending. -/
def usageAgg (users : List UserRow) (rows : List CodeRow) : List UsageEntry :=
  let uids := List.insertionSort (fun a b : Int => a ≤ b)
    (dedupFirst (rows.filterMap (fun r => r.used_by)))
  List.insertionSort cntGe (uids.map (usageEntry users rows))

/-- The rows selected by `WHERE c.is_used = 1 AND c.used_by IS NOT NULL`. -/
def usedRowsAll (s : Store) : List CodeRow :=
  s.codes.filter (fun r => r.is_used == 1 && r.used_by != none)

/-- SQLite `date(t)` on an ISO-8601 UTC timestamp: its `YYYY-MM-DD` prefix. -/
def sqliteDate (t : String) : String := t.take 10

/-- The rows selected by the today-variant `WHERE` clause, which additionally
requires `date(c.used_at) = date('now')`; `today` stands for `date('now')`. -/
def usedRowsToday (today : String) (s : Store) : List CodeRow :=
  s.codes.filter (fun r =>
    r.is_used == 1 && r.used_by != none && r.used_at.map sqliteDate == some today)

/-- Model of `Storage.usage_counts_with_names`. -/
def usage_counts_with_names (s : Store) : List UsageEntry :=
  usageAgg s.users (usedRowsAll s)

/-- Model of `Storage.usage_counts_with_names_today`. -/
def usage_counts_with_names_today (today : String) (s : Store) : List UsageEntry :=
  usageAgg s.users (usedRowsToday today s)

/-- Model of `Storage.total_used_count`: `SELECT COUNT(*) FROM codes WHERE is_used = 1`. -/
def total_used_count (s : Store) : Nat :=
  s.codes.countP (fun r => r.is_used == 1)

/-- The row update of `UPDATE codes SET is_used = 0, used_by = NULL,
used_at = NULL WHERE is_used = 1`. -/
def resetRow (r : CodeRow) : CodeRow :=
  if r.is_used == 1 then { r with is_used := 0, used_by := none, used_at := none }
  else r

/-- Model of `Storage.reset_all_codes`: count the used rows, revert them all to
unused clearing `used_by`/`used_at`, then count the unused rows of the
updated table.  Returns `(reset_count, total_unused_after)`. -/
def reset_all_codes (s : Store) : (Nat × Nat) × Store :=
  let used_count := s.codes.countP (fun r => r.is_used == 1)
  let s2 : Store := { s with codes := s.codes.map resetRow }
  let unused_total := s2.codes.countP (fun r => r.is_used == 0)
  ((used_count, unused_total), s2)

/-- Model of `Storage.clear_all_codes`: count all rows, `DELETE FROM codes`, return
the count removed. -/
def clear_all_codes (s : Store) : Nat × Store :=
  (s.codes.length, { s with codes := [] })

/-- Number of rows carrying a given code value. -/
def countVal (v : String) (rows : List CodeRow) : Nat :=
  rows.countP (fun r => r.code == v)

/-- The report ordering asserted by the spec: count strictly descending,
ties broken deterministically by ascending user id. -/
def usageOrder (a b : UsageEntry) : Prop :=
  entryCnt b < entryCnt a ∨ (entryCnt a = entryCnt b ∧ entryUid a < entryUid b)

/-- The store states reachable from a fresh database through the storage
operations (each with arbitrary arguments and timestamps). -/
inductive Reachable : Store → Prop where
  | init : Reachable initStore
  | insert (cs : List String) (u : Int) (t : String) {s : Store} :
      Reachable s → Reachable (insert_codes cs u t s).2
  | alloc (u : Int) (t : String) {s : Store} :
      Reachable s → Reachable (get_and_mark_next_unused u t s).2
  | reset {s : Store} : Reachable s → Reachable (reset_all_codes s).2
  | clear {s : Store} : Reachable s → Reachable (clear_all_codes s).2
  | upsert (uid : Int) (dn : String) (un : Option String) (t : String) {s : Store} :
      Reachable s → Reachable (upsert_user uid dn un t s)

/-!
Embedding of `bot.py`'s `_extract_codes_from_text`.  Python string
operations are modelled at the character-list level: `str.replace`,
`str.split` on a one-character separator, and `str.strip`.
-/

/-- Model of `text.replace("\r\n", "\n")`: left-to-right non-overlapping replacement. -/
def replaceCrlf : List Char → List Char
  | '\r' :: '\n' :: rest => '\n' :: replaceCrlf rest
  | c :: rest => c :: replaceCrlf rest
  | [] => []

/-- Model of `text.replace("\r", "\n")` (run after `replaceCrlf`, no `\r\n` remains). -/
def replaceCr (l : List Char) : List Char :=
  l.map (fun c => if c == '\r' then '\n' else c)

/-- The newline normalization at the top of `_extract_codes_from_text`. -/
def normalizeNewlines (l : List Char) : List Char :=
  replaceCr (replaceCrlf l)

/-- The whitespace characters removed by Python's `str.strip()` (ASCII part). -/
def pyIsSpace (c : Char) : Bool :=
  c == ' ' || c == '\t' || c == '\n' || c == '\r' || c == '\x0b' || c == '\x0c'

/-- Python `s.split(sep)` for a one-character separator: always at least one
part, empty parts kept. -/
def splitOnChar (sep : Char) : List Char → List (List Char)
  | [] => [[]]
  | c :: rest =>
    let r := splitOnChar sep rest
    if c == sep then [] :: r
    else
      match r with
      | [] => [[c]]
      | p :: ps => (c :: p) :: ps

/-- Python `s.strip()`: drop leading and trailing whitespace. -/
def pyStrip (l : List Char) : List Char :=
  ((l.dropWhile pyIsSpace).reverse.dropWhile pyIsSpace).reverse

/-- The inner loop body of `_extract_codes_from_text`: skip empty parts,
skip parts already seen, otherwise record in both `seen` and `results`.
The state is the pair `(seen, results)`. -/
def extractStep (acc : List (List Char) × List (List Char)) (p : List Char) :
    List (List Char) × List (List Char) :=
  if p = [] then acc
  else if p ∈ acc.1 then acc
  else (acc.1 ++ [p], acc.2 ++ [p])

/-- The per-line processing of `_extract_codes_from_text`: strip the line,
skip it when empty, otherwise split it on commas, strip each part and feed
the parts to `extractStep`. -/
def extractLine (acc : List (List Char) × List (List Char)) (rawLine : List Char) :
    List (List Char) × List (List Char) :=
  let line := pyStrip rawLine
  if line = [] then acc
  else ((splitOnChar ',' line).map pyStrip).foldl extractStep acc

/-- Model of `_extract_codes_from_text` of `bot.py`: normalize newlines, walk the
lines, and return the accumulated `results` list. -/
def extract_codes_from_text (text : List Char) : List (List Char) :=
  let t := normalizeNewlines text
  ((splitOnChar '\n' t).foldl extractLine ([], [])).2

/-- The extraction as the spec words it: split the text on line breaks and
commas, trim whitespace from each token, drop empty tokens, and keep the
first occurrence of each token in order (case-sensitively). -/
def extractCodesSpec (text : List Char) : List (List Char) :=
  let t := normalizeNewlines text
  dedupFirst ((((splitOnChar '\n' t).flatMap (splitOnChar ',')).map pyStrip).filter
    (fun p => p ≠ []))

/-- Helper for reasoning about `splitOnChar`: append a character to the last
part of a split result. -/
def appendLast (c : Char) : List (List Char) → List (List Char)
  | [] => [[c]]
  | [p] => [p ++ [c]]
  | p :: q :: ps => p :: appendLast c (q :: ps)

/-- The nonempty stripped comma-separated tokens of one line: the unit both
the loop of `_extract_codes_from_text` and the spec-side description
process. -/
def commaTokens (l : List Char) : List (List Char) :=
  ((splitOnChar ',' l).map pyStrip).filter (fun p => p ≠ [])

/-- Sample store: a fresh database after one upload batch. -/
def demoStore : Store := (insert_codes ["A1", "A2", "A1", "A3"] 1 "T0" initStore).2

/-- Sample store after additionally allocating one code to user 2. -/
def demoUsed : Store := (get_and_mark_next_unused 2 "T1" demoStore).2

/-- Sample store after additionally registering user 2 in the registry. -/
def demoStore2 : Store := upsert_user 2 "Ann" (some "ann") "T2" demoUsed

/-- A store whose only row is already used. -/
def usedOnlyStore : Store := ⟨[⟨1, "B1", 1, 7, "T", some 7, some "T"⟩], [], 2⟩

/-! ### First-occurrence deduplication -/

theorem dedupFirst_loop_mem {α : Type} [DecidableEq α] (l : List α) :
    ∀ (acc : List α) (a : α),
      (a ∈ List.foldl dedupStep acc l) ↔ a ∈ acc ∨ a ∈ l := by
  induction l with
  | nil => intro acc a; simp
  | cons c cs ih =>
    intro acc a
    simp only [List.foldl_cons, dedupStep]
    by_cases hc : c ∈ acc
    · rw [if_pos hc, ih]
      constructor
      · rintro (h | h)
        · exact Or.inl h
        · exact Or.inr (List.mem_cons_of_mem _ h)
      · rintro (h | h)
        · exact Or.inl h
        · rcases List.mem_cons.mp h with rfl | h
          · exact Or.inl hc
          · exact Or.inr h
    · rw [if_neg hc, ih]
      simp only [List.mem_append, List.mem_singleton, List.mem_cons]
      tauto

theorem dedupFirst_loop_nodup {α : Type} [DecidableEq α] (l : List α) :
    ∀ acc : List α, acc.Nodup →
      (List.foldl dedupStep acc l).Nodup := by
  induction l with
  | nil => intro acc h; simpa using h
  | cons c cs ih =>
    intro acc h
    simp only [List.foldl_cons, dedupStep]
    by_cases hc : c ∈ acc
    · rw [if_pos hc]; exact ih acc h
    · rw [if_neg hc]
      refine ih _ ?_
      simp [List.nodup_append, h, hc]

theorem mem_dedupFirst {α : Type} [DecidableEq α] {l : List α} {a : α} :
    a ∈ dedupFirst l ↔ a ∈ l := by
  unfold dedupFirst
  rw [dedupFirst_loop_mem]
  simp

theorem nodup_dedupFirst {α : Type} [DecidableEq α] (l : List α) :
    (dedupFirst l).Nodup :=
  dedupFirst_loop_nodup l [] List.nodup_nil

/-! ### Value lookup -/

theorem hasValue_append (l1 l2 : List CodeRow) (v : String) :
    hasValue (l1 ++ l2) v = (hasValue l1 v || hasValue l2 v) := by
  simp [hasValue, List.any_append]

theorem hasValue_iff_mem_map (rows : List CodeRow) (v : String) :
    hasValue rows v = true ↔ v ∈ rows.map (fun r => r.code) := by
  simp [hasValue, List.any_eq_true, List.mem_map, beq_iff_eq]

theorem hasValue_false_countVal (rows : List CodeRow) (v : String)
    (h : hasValue rows v = false) : countVal v rows = 0 := by
  rw [countVal, List.countP_eq_zero]
  intro r hr
  rw [hasValue, List.any_eq_false] at h
  exact h r hr

/-! ### The insert loop -/

theorem insertLoop_nil (u : Int) (t : String) (s : Store) :
    insertLoop u t [] s = s := rfl

theorem insertLoop_cons (u : Int) (t : String) (c : String) (cs : List String) (s : Store) :
    insertLoop u t (c :: cs) s =
      if hasValue s.codes c then insertLoop u t cs s
      else insertLoop u t cs ⟨s.codes ++ [mkCodeRow s.nextId c u t], s.users, s.nextId + 1⟩ :=
  rfl

theorem insertLoop_spec (u : Int) (t : String) :
    ∀ (cs : List String) (s : Store), cs.Nodup →
      ∃ newRows : List CodeRow,
        (insertLoop u t cs s).codes = s.codes ++ newRows ∧
        (insertLoop u t cs s).users = s.users ∧
        (insertLoop u t cs s).nextId = s.nextId + newRows.length ∧
        newRows.map (fun r => r.code) = cs.filter (fun c => !hasValue s.codes c) ∧
        (∀ r ∈ newRows, r.is_used = 0 ∧ r.uploaded_by = u ∧ r.uploaded_at = t ∧
          r.used_by = none ∧ r.used_at = none ∧
          s.nextId ≤ r.id ∧ r.id < s.nextId + newRows.length) ∧
        newRows.Pairwise (fun a b => a.id < b.id) := by
  intro cs
  induction cs with
  | nil =>
    intro s _
    exact ⟨[], by simp [insertLoop_nil]⟩
  | cons c cs ih =>
    intro s hnd
    rcases List.nodup_cons.mp hnd with ⟨hc, hnd'⟩
    by_cases hv : hasValue s.codes c
    · rcases ih s hnd' with ⟨nr, h1, h2, h3, h4, h5, h6⟩
      refine ⟨nr, ?_, ?_, ?_, ?_, h5, h6⟩
      · rw [insertLoop_cons, if_pos hv]; exact h1
      · rw [insertLoop_cons, if_pos hv]; exact h2
      · rw [insertLoop_cons, if_pos hv]; exact h3
      · rw [h4, List.filter_cons]
        simp [hv]
    · have hstep : insertLoop u t (c :: cs) s =
        insertLoop u t cs ⟨s.codes ++ [mkCodeRow s.nextId c u t], s.users, s.nextId + 1⟩ := by
        rw [insertLoop_cons, if_neg hv]
      rcases ih ⟨s.codes ++ [mkCodeRow s.nextId c u t], s.users, s.nextId + 1⟩ hnd'
        with ⟨nr, h1, h2, h3, h4, h5, h6⟩
      dsimp only at h1 h2 h3 h4 h5
      have hfc : cs.filter (fun c' => !hasValue (s.codes ++ [mkCodeRow s.nextId c u t]) c') =
          cs.filter (fun c' => !hasValue s.codes c') := by
        apply List.filter_congr
        intro c' hc'
        have hne : c ≠ c' := fun h => hc (h ▸ hc')
        rw [hasValue_append]
        have h1c : hasValue [mkCodeRow s.nextId c u t] c' = false := by
          simp only [hasValue, List.any_cons, List.any_nil, Bool.or_false, mkCodeRow,
            beq_eq_false_iff_ne, ne_eq]
          exact hne
        rw [h1c, Bool.or_false]
      refine ⟨mkCodeRow s.nextId c u t :: nr, ?_, ?_, ?_, ?_, ?_, ?_⟩
      · rw [hstep, h1]; simp
      · rw [hstep, h2]
      · rw [hstep, h3]; simp only [List.length_cons]; omega
      · rw [List.map_cons, h4, hfc, List.filter_cons]
        simp [hv, mkCodeRow]
      · intro r hr
        rcases List.mem_cons.mp hr with rfl | hr
        · refine ⟨rfl, rfl, rfl, rfl, rfl, le_refl _, ?_⟩
          simp [mkCodeRow]
        · rcases h5 r hr with ⟨p1, p2, p3, p4, p5, p6, p7⟩
          refine ⟨p1, p2, p3, p4, p5, ?_, ?_⟩
          · omega
          · simp only [List.length_cons]; omega
      · rw [List.pairwise_cons]
        refine ⟨?_, h6⟩
        intro b hb
        have hid := (h5 b hb).2.2.2.2.2.1
        simp only [mkCodeRow]
        omega

/-! ### Allocation: minimal-id selection and FIFO -/

theorem minIdUnused_nil : minIdUnused [] = none := rfl

theorem minIdUnused_cons (r : CodeRow) (rs : List CodeRow) :
    minIdUnused (r :: rs) =
      (if r.is_used == 0 then
        match minIdUnused rs with
        | none => some r
        | some m0 => if r.id ≤ m0.id then some r else some m0
      else minIdUnused rs) := rfl

theorem minIdUnused_eq_none (l : List CodeRow) :
    minIdUnused l = none ↔ ∀ r ∈ l, r.is_used ≠ 0 := by
  induction l with
  | nil => simp [minIdUnused_nil]
  | cons r rs ih =>
    rw [minIdUnused_cons]
    by_cases hr : r.is_used == 0
    · rw [if_pos hr]
      rcases h : minIdUnused rs with _ | m0
      · simp only [beq_iff_eq] at hr
        simp [hr]
      · constructor
        · intro hcontra
          by_cases hle : r.id ≤ m0.id <;> simp [hle] at hcontra
        · intro hall
          exact absurd hr (by simpa using hall r (List.mem_cons_self r rs))
    · rw [if_neg hr]
      simp only [beq_iff_eq] at hr
      rw [ih]
      constructor
      · intro hall
        intro x hx
        rcases List.mem_cons.mp hx with rfl | hx
        · exact hr
        · exact hall x hx
      · intro hall x hx
        exact hall x (List.mem_cons_of_mem _ hx)

theorem minIdUnused_spec (l : List CodeRow) :
    ∀ m : CodeRow, minIdUnused l = some m →
      m ∈ l ∧ m.is_used = 0 ∧ ∀ r ∈ l, r.is_used = 0 → m.id ≤ r.id := by
  induction l with
  | nil => intro m h; cases h
  | cons r rs ih =>
    intro m
    rw [minIdUnused_cons]
    by_cases hr : r.is_used == 0
    · rw [if_pos hr]
      simp only [beq_iff_eq] at hr
      rcases h : minIdUnused rs with _ | m0
      · intro he
        have he' : some r = some m := he
        cases he'
        refine ⟨List.mem_cons_self _ _, hr, ?_⟩
        intro x hx hx0
        rcases List.mem_cons.mp hx with rfl | hx
        · exact le_refl _
        · exact absurd hx0 (by simpa using (minIdUnused_eq_none rs).mp h x hx)
      · intro he
        have he' : (if r.id ≤ m0.id then some r else some m0) = some m := he
        rcases ih m0 h with ⟨hm0mem, hm0un, hm0min⟩
        by_cases hle : r.id ≤ m0.id
        · rw [if_pos hle] at he'
          cases he'
          refine ⟨List.mem_cons_self _ _, hr, ?_⟩
          intro x hx hx0
          rcases List.mem_cons.mp hx with rfl | hx
          · exact le_refl _
          · exact le_trans hle (hm0min x hx hx0)
        · rw [if_neg hle] at he'
          cases he'
          refine ⟨List.mem_cons_of_mem _ hm0mem, hm0un, ?_⟩
          intro x hx hx0
          rcases List.mem_cons.mp hx with rfl | hx
          · omega
          · exact hm0min x hx hx0
    · rw [if_neg hr]
      simp only [beq_iff_eq] at hr
      intro h
      rcases ih m h with ⟨hmem, hun, hmin⟩
      refine ⟨List.mem_cons_of_mem _ hmem, hun, ?_⟩
      intro x hx hx0
      rcases List.mem_cons.mp hx with rfl | hx
      · exact absurd hx0 hr
      · exact hmin x hx hx0

theorem minIdUnused_head_filter (l : List CodeRow)
    (hpw : l.Pairwise (fun a b => a.id < b.id)) :
    minIdUnused l = (l.filter (fun r => r.is_used == 0)).head? := by
  induction l with
  | nil => simp [minIdUnused_nil]
  | cons r rs ih =>
    rcases List.pairwise_cons.mp hpw with ⟨hfst, hpw'⟩
    rw [minIdUnused_cons, List.filter_cons]
    by_cases hr : r.is_used == 0
    · rw [if_pos hr, if_pos hr]
      rcases h : minIdUnused rs with _ | m0
      · simp
      · have hm0 := (minIdUnused_spec rs m0 h).1
        have : r.id ≤ m0.id := le_of_lt (hfst m0 hm0)
        simp [this]
    · rw [if_neg hr, if_neg hr]
      exact ih hpw'

theorem map_eq_self_of_forall {α : Type} (f : α → α) :
    ∀ l : List α, (∀ x ∈ l, f x = x) → l.map f = l := by
  intro l
  induction l with
  | nil => intro _; rfl
  | cons a l' ih =>
    intro h
    rw [List.map_cons, h a (List.mem_cons_self _ _), ih (fun x hx => h x (List.mem_cons_of_mem _ hx))]

theorem markRow_id (u : Int) (t : String) (cid : Nat) (r : CodeRow) :
    (markRow u t cid r).id = r.id := by
  rw [markRow]
  by_cases h : r.id == cid && r.is_used == 0 <;> simp [h]

theorem markRow_not_matching (u : Int) (t : String) (cid : Nat) (r : CodeRow)
    (h : r.id ≠ cid) : markRow u t cid r = r := by
  rw [markRow]
  have : (r.id == cid && r.is_used == 0) = false := by
    simp [h]
  rw [this]
  simp

theorem filter_map_markRow (u : Int) (t : String) :
    ∀ (l : List CodeRow), l.Pairwise (fun a b => a.id < b.id) →
      ∀ (m : CodeRow) (rest : List CodeRow),
        l.filter (fun r => r.is_used == 0) = m :: rest →
        (l.map (markRow u t m.id)).filter (fun r => r.is_used == 0) = rest := by
  intro l
  induction l with
  | nil => intro _ m rest h; cases h
  | cons a l' ih =>
    intro hpw m rest hf
    rcases List.pairwise_cons.mp hpw with ⟨hfst, hpw'⟩
    rw [List.filter_cons] at hf
    by_cases ha : a.is_used == 0
    · rw [if_pos ha] at hf
      rcases hf
      rw [List.map_cons, List.filter_cons]
      have hmark : markRow u t a.id a =
          { a with is_used := 1, used_by := some u, used_at := some t } := by
        rw [markRow, if_pos]
        simp [ha]
      rw [hmark]
      have hunchanged : l'.map (markRow u t a.id) = l' := by
        apply map_eq_self_of_forall
        intro x hx
        exact markRow_not_matching u t a.id x (by have := hfst x hx; omega)
      simp only [show (({ a with is_used := 1, used_by := some u, used_at := some t} :
        CodeRow).is_used == 0) = false by simp]
      rw [if_neg (by simp), hunchanged]
    · rw [if_neg ha] at hf
      rw [List.map_cons, List.filter_cons]
      have hmm : m ∈ l' := by
        have : m ∈ l'.filter (fun r => r.is_used == 0) := by rw [hf]; exact List.mem_cons_self _ _
        exact List.mem_of_mem_filter this
      have hne : a.id ≠ m.id := by have := hfst m hmm; omega
      rw [markRow_not_matching u t m.id a hne, if_neg ha]
      exact ih hpw' m rest hf

theorem get_and_mark_eq_none (u : Int) (t : String) (s : Store)
    (h : minIdUnused s.codes = none) :
    get_and_mark_next_unused u t s = (none, s) := by
  rw [get_and_mark_next_unused, h]

theorem get_and_mark_eq_some (u : Int) (t : String) (s : Store) (m : CodeRow)
    (h : minIdUnused s.codes = some m) :
    get_and_mark_next_unused u t s =
      (some m.code, ⟨s.codes.map (markRow u t m.id), s.users, s.nextId⟩) := by
  rw [get_and_mark_next_unused, h]

theorem allocRun_zero (u : Int) (t : String) (s : Store) : allocRun 0 u t s = ([], s) := rfl

theorem allocRun_succ (k : Nat) (u : Int) (t : String) (s : Store) :
    allocRun (k + 1) u t s =
      (match get_and_mark_next_unused u t s with
      | (none, s1) => ([], s1)
      | (some v, s1) => (v :: (allocRun k u t s1).1, (allocRun k u t s1).2)) := rfl

theorem map_markRow_pairwise (u : Int) (t : String) (cid : Nat) (l : List CodeRow)
    (hpw : l.Pairwise (fun a b => a.id < b.id)) :
    (l.map (markRow u t cid)).Pairwise (fun a b => a.id < b.id) := by
  rw [List.pairwise_map]
  apply hpw.imp
  intro a b hab
  rw [markRow_id, markRow_id]
  exact hab

theorem allocRun_fifo (u : Int) (t : String) :
    ∀ (k : Nat) (s : Store), s.codes.Pairwise (fun a b => a.id < b.id) →
      (allocRun k u t s).1 =
        ((s.codes.filter (fun r => r.is_used == 0)).map (fun r => r.code)).take k := by
  intro k
  induction k with
  | zero => intro s _; simp [allocRun_zero]
  | succ k ih =>
    intro s hpw
    rcases hf : s.codes.filter (fun r => r.is_used == 0) with _ | ⟨m, rest⟩
    · have hnone : minIdUnused s.codes = none := by
        rw [minIdUnused_head_filter s.codes hpw, hf]
        rfl
      rw [allocRun_succ, get_and_mark_eq_none u t s hnone, hf]
      simp
    · have hsome : minIdUnused s.codes = some m := by
        rw [minIdUnused_head_filter s.codes hpw, hf]
        rfl
      rw [allocRun_succ, get_and_mark_eq_some u t s m hsome]
      have hnext := filter_map_markRow u t s.codes hpw m rest hf
      have hpw2 : (s.codes.map (markRow u t m.id)).Pairwise (fun a b => a.id < b.id) :=
        map_markRow_pairwise u t m.id s.codes hpw
      have := ih ⟨s.codes.map (markRow u t m.id), s.users, s.nextId⟩ hpw2
      dsimp only at this ⊢
      rw [this, hnext, hf, List.map_cons, List.take_succ_cons]

/-! ### Row-update facts and the reachable-state invariant -/

theorem markRow_code (u : Int) (t : String) (cid : Nat) (r : CodeRow) :
    (markRow u t cid r).code = r.code := by
  rw [markRow]
  by_cases h : r.id == cid && r.is_used == 0 <;> simp [h]

theorem resetRow_id (r : CodeRow) : (resetRow r).id = r.id := by
  rw [resetRow]
  by_cases h : r.is_used == 1 <;> simp [h]

theorem resetRow_code (r : CodeRow) : (resetRow r).code = r.code := by
  rw [resetRow]
  by_cases h : r.is_used == 1 <;> simp [h]

theorem upsert_user_codes (uid : Int) (dn : String) (un : Option String) (t : String)
    (s : Store) : (upsert_user uid dn un t s).codes = s.codes := by
  rw [upsert_user]
  split <;> rfl

theorem upsert_user_nextId (uid : Int) (dn : String) (un : Option String) (t : String)
    (s : Store) : (upsert_user uid dn un t s).nextId = s.nextId := by
  rw [upsert_user]
  split <;> rfl

theorem insert_codes_store (cs : List String) (u : Int) (t : String) (s : Store) :
    (insert_codes cs u t s).2 = insertLoop u t (dedupFirst cs) s := rfl

theorem reset_all_codes_store (s : Store) :
    (reset_all_codes s).2 = { s with codes := s.codes.map resetRow } := rfl

theorem clear_all_codes_store (s : Store) :
    (clear_all_codes s).2 = { s with codes := [] } := rfl

theorem reachable_inv (s : Store) (h : Reachable s) :
    (∀ r ∈ s.codes, r.is_used = 0 ∨ r.is_used = 1) ∧
    (∀ r ∈ s.codes, r.is_used = 1 → r.used_by ≠ none ∧ r.used_at ≠ none) ∧
    (s.codes.map (fun r => r.code)).Nodup ∧
    s.codes.Pairwise (fun a b => a.id < b.id) ∧
    (∀ r ∈ s.codes, r.id < s.nextId) := by
  induction h with
  | init => simp [initStore]
  | @insert cs u t s0 _ ih =>
    rcases ih with ⟨i1, i2, i3, i4, i5⟩
    rw [insert_codes_store]
    rcases insertLoop_spec u t (dedupFirst cs) s0 (nodup_dedupFirst cs)
      with ⟨nr, e1, _, e3, e4, e5, e6⟩
    rw [e1, e3]
    refine ⟨?_, ?_, ?_, ?_, ?_⟩
    · intro r hr
      rcases List.mem_append.mp hr with hr | hr
      · exact i1 r hr
      · exact Or.inl (e5 r hr).1
    · intro r hr hu
      rcases List.mem_append.mp hr with hr | hr
      · exact i2 r hr hu
      · exact absurd hu (by rw [(e5 r hr).1]; omega)
    · rw [List.map_append]
      rw [List.nodup_append]
      refine ⟨i3, ?_, ?_⟩
      · rw [e4]
        exact (nodup_dedupFirst cs).filter _
      · intro x hx hy
        rw [e4] at hy
        have hnv : ¬ hasValue s0.codes x = true := by
          rcases List.mem_filter.mp hy with ⟨_, hb⟩
          simp only [Bool.not_eq_true'] at hb
          simp [hb]
        exact hnv ((hasValue_iff_mem_map s0.codes x).mpr hx)
    · rw [List.pairwise_append]
      refine ⟨i4, e6, ?_⟩
      intro a ha b hb
      have h1 := i5 a ha
      have h2 := (e5 b hb).2.2.2.2.2.1
      omega
    · intro r hr
      rcases List.mem_append.mp hr with hr | hr
      · have := i5 r hr; omega
      · exact (e5 r hr).2.2.2.2.2.2
  | @alloc u t s0 _ ih =>
    rcases ih with ⟨i1, i2, i3, i4, i5⟩
    rcases hmin : minIdUnused s0.codes with _ | m
    · rw [get_and_mark_eq_none u t s0 hmin]
      exact ⟨i1, i2, i3, i4, i5⟩
    · rw [get_and_mark_eq_some u t s0 m hmin]
      refine ⟨?_, ?_, ?_, ?_, ?_⟩
      · intro r hr
        rcases List.mem_map.mp hr with ⟨r0, hr0, rfl⟩
        rw [markRow]
        by_cases hc : r0.id == m.id && r0.is_used == 0
        · rw [if_pos hc]; exact Or.inr rfl
        · rw [if_neg hc]; exact i1 r0 hr0
      · intro r hr hu
        rcases List.mem_map.mp hr with ⟨r0, hr0, rfl⟩
        rw [markRow] at hu ⊢
        by_cases hc : r0.id == m.id && r0.is_used == 0
        · rw [if_pos hc] at hu ⊢
          exact ⟨by simp, by simp⟩
        · rw [if_neg hc] at hu ⊢
          exact i2 r0 hr0 hu
      · have : (s0.codes.map (markRow u t m.id)).map (fun r => r.code) =
            s0.codes.map (fun r => r.code) := by
          rw [List.map_map]
          apply List.map_congr_left
          intro r _
          exact markRow_code u t m.id r
        dsimp only
        rw [this]
        exact i3
      · exact map_markRow_pairwise u t m.id s0.codes i4
      · intro r hr
        rcases List.mem_map.mp hr with ⟨r0, hr0, rfl⟩
        rw [markRow_id]
        exact i5 r0 hr0
  | @reset s0 _ ih =>
    rcases ih with ⟨i1, i2, i3, i4, i5⟩
    rw [reset_all_codes_store]
    refine ⟨?_, ?_, ?_, ?_, ?_⟩
    · intro r hr
      rcases List.mem_map.mp hr with ⟨r0, hr0, rfl⟩
      rw [resetRow]
      by_cases hc : r0.is_used == 1
      · rw [if_pos hc]; exact Or.inl rfl
      · rw [if_neg hc]; exact i1 r0 hr0
    · intro r hr hu
      rcases List.mem_map.mp hr with ⟨r0, hr0, rfl⟩
      rw [resetRow] at hu ⊢
      by_cases hc : r0.is_used == 1
      · rw [if_pos hc] at hu; simp at hu
      · rw [if_neg hc] at hu ⊢
        exact i2 r0 hr0 hu
    · have : (s0.codes.map resetRow).map (fun r => r.code) =
          s0.codes.map (fun r => r.code) := by
        rw [List.map_map]
        apply List.map_congr_left
        intro r _
        exact resetRow_code r
      dsimp only
      rw [this]
      exact i3
    · dsimp only
      rw [List.pairwise_map]
      apply i4.imp
      intro a b hab
      rw [resetRow_id, resetRow_id]
      exact hab
    · intro r hr
      rcases List.mem_map.mp hr with ⟨r0, hr0, rfl⟩
      rw [resetRow_id]
      exact i5 r0 hr0
  | @clear s0 _ _ =>
    rw [clear_all_codes_store]
    simp
  | @upsert uid dn un t s0 _ ih =>
    rcases ih with ⟨i1, i2, i3, i4, i5⟩
    rw [upsert_user_codes] at *
    rw [upsert_user_nextId]
    exact ⟨i1, i2, i3, i4, i5⟩

/-! ### Counting lemmas -/

theorem countP_zero_one_partition :
    ∀ l : List CodeRow, (∀ r ∈ l, r.is_used = 0 ∨ r.is_used = 1) →
      l.countP (fun r => r.is_used == 0) + l.countP (fun r => r.is_used == 1) = l.length := by
  intro l
  induction l with
  | nil => intro _; rfl
  | cons a l' ih =>
    intro h
    have ha := h a (List.mem_cons_self _ _)
    have ih' := ih (fun r hr => h r (List.mem_cons_of_mem _ hr))
    rw [List.countP_cons, List.countP_cons, List.length_cons]
    rcases ha with ha | ha <;> simp [ha] <;> omega

theorem insertLoop_hasValue_mono (u : Int) (t : String) (v : String) :
    ∀ (cs : List String) (s : Store), hasValue s.codes v = true →
      hasValue (insertLoop u t cs s).codes v = true := by
  intro cs
  induction cs with
  | nil => intro s h; rw [insertLoop_nil]; exact h
  | cons c cs ih =>
    intro s h
    rw [insertLoop_cons]
    by_cases hv : hasValue s.codes c
    · rw [if_pos hv]; exact ih s h
    · rw [if_neg hv]
      apply ih
      dsimp only
      rw [hasValue_append, h, Bool.true_or]

theorem insertLoop_hasValue_of_mem (u : Int) (t : String) (v : String) :
    ∀ (cs : List String) (s : Store), v ∈ cs →
      hasValue (insertLoop u t cs s).codes v = true := by
  intro cs
  induction cs with
  | nil => intro s h; cases h
  | cons c cs ih =>
    intro s hv
    rw [insertLoop_cons]
    by_cases hc : hasValue s.codes c
    · rw [if_pos hc]
      rcases List.mem_cons.mp hv with rfl | hv
      · exact insertLoop_hasValue_mono u t v cs s hc
      · exact ih s hv
    · rw [if_neg hc]
      rcases List.mem_cons.mp hv with rfl | hv
      · apply insertLoop_hasValue_mono
        dsimp only
        rw [hasValue_append]
        have : hasValue [mkCodeRow s.nextId v u t] v = true := by
          simp [hasValue, mkCodeRow]
        rw [this, Bool.or_true]
      · exact ih _ hv

theorem insertLoop_countVal_of_hasValue (u : Int) (t : String) (v : String) :
    ∀ (cs : List String) (s : Store), hasValue s.codes v = true →
      countVal v (insertLoop u t cs s).codes = countVal v s.codes := by
  intro cs
  induction cs with
  | nil => intro s _; rw [insertLoop_nil]
  | cons c cs ih =>
    intro s h
    rw [insertLoop_cons]
    by_cases hc : hasValue s.codes c
    · rw [if_pos hc]; exact ih s h
    · rw [if_neg hc]
      have hcv : c ≠ v := fun he => hc (he ▸ h)
      have h2 : hasValue (s.codes ++ [mkCodeRow s.nextId c u t]) v = true := by
        rw [hasValue_append, h, Bool.true_or]
      rw [ih _ h2]
      dsimp only
      rw [countVal, List.countP_append, countVal]
      have : List.countP (fun r => r.code == v) [mkCodeRow s.nextId c u t] = 0 := by
        simp [mkCodeRow, hcv]
      rw [this, Nat.add_zero]

theorem insertLoop_countVal_le (u : Int) (t : String) (v : String) :
    ∀ (cs : List String) (s : Store), cs.Nodup →
      countVal v (insertLoop u t cs s).codes ≤ max (countVal v s.codes) 1 := by
  intro cs
  induction cs with
  | nil =>
    intro s _
    rw [insertLoop_nil]
    omega
  | cons c cs ih =>
    intro s hnd
    rcases List.nodup_cons.mp hnd with ⟨_, hnd'⟩
    rw [insertLoop_cons]
    by_cases hc : hasValue s.codes c
    · rw [if_pos hc]; exact ih s hnd'
    · rw [if_neg hc]
      by_cases hcv : c = v
      · subst hcv
        have h0 : countVal c s.codes = 0 :=
          hasValue_false_countVal s.codes c (by simpa using hc)
        have h2 : hasValue (s.codes ++ [mkCodeRow s.nextId c u t]) c = true := by
          rw [hasValue_append]
          have : hasValue [mkCodeRow s.nextId c u t] c = true := by
            simp [hasValue, mkCodeRow]
          rw [this, Bool.or_true]
        rw [insertLoop_countVal_of_hasValue u t c cs _ h2]
        dsimp only
        rw [countVal, List.countP_append]
        have h1 : List.countP (fun r => r.code == c) [mkCodeRow s.nextId c u t] = 1 := by
          simp [mkCodeRow]
        rw [h1, ← countVal, h0]
        omega
      · have step : countVal v (s.codes ++ [mkCodeRow s.nextId c u t]) = countVal v s.codes := by
          rw [countVal, List.countP_append, ← countVal]
          have : List.countP (fun r => r.code == v) [mkCodeRow s.nextId c u t] = 0 := by
            simp [mkCodeRow, hcv]
          rw [this, Nat.add_zero]
        calc countVal v (insertLoop u t cs
              ⟨s.codes ++ [mkCodeRow s.nextId c u t], s.users, s.nextId + 1⟩).codes
            ≤ max (countVal v (s.codes ++ [mkCodeRow s.nextId c u t])) 1 := ih _ hnd'
          _ = max (countVal v s.codes) 1 := by rw [step]

/-! ### Specification of a whole insert call -/

theorem insert_codes_fst1 (codes : List String) (u : Int) (t : String) (s : Store) :
    (insert_codes codes u t s).1.1 =
      (insertLoop u t (dedupFirst codes) s).codes.countP
        (fun r => r.uploaded_at == t && r.uploaded_by == u) := rfl

theorem insert_codes_fst2 (codes : List String) (u : Int) (t : String) (s : Store) :
    (insert_codes codes u t s).1.2 =
      (dedupFirst codes).length - (insert_codes codes u t s).1.1 := rfl

theorem insert_codes_spec (codes : List String) (u : Int) (t : String) (s : Store)
    (hfresh : ∀ r ∈ s.codes, ¬(r.uploaded_at = t ∧ r.uploaded_by = u)) :
    ∃ newRows : List CodeRow,
      (insert_codes codes u t s).2.codes = s.codes ++ newRows ∧
      newRows.map (fun r => r.code) =
        (dedupFirst codes).filter (fun c => !hasValue s.codes c) ∧
      (∀ r ∈ newRows, r.is_used = 0 ∧ r.uploaded_by = u ∧ r.uploaded_at = t ∧
        r.used_by = none ∧ r.used_at = none) ∧
      (insert_codes codes u t s).1.1 = newRows.length ∧
      (insert_codes codes u t s).1.2 = (dedupFirst codes).length - newRows.length := by
  rcases insertLoop_spec u t (dedupFirst codes) s (nodup_dedupFirst codes)
    with ⟨nr, e1, _, _, e4, e5, _⟩
  have hcount : (insert_codes codes u t s).1.1 = nr.length := by
    rw [insert_codes_fst1, e1, List.countP_append]
    have hz : s.codes.countP (fun r => r.uploaded_at == t && r.uploaded_by == u) = 0 := by
      rw [List.countP_eq_zero]
      intro r hr
      have := hfresh r hr
      simp only [Bool.and_eq_true, beq_iff_eq]
      tauto
    have hall : nr.countP (fun r => r.uploaded_at == t && r.uploaded_by == u) = nr.length := by
      rw [List.countP_eq_length]
      intro r hr
      rcases e5 r hr with ⟨_, p2, p3, _⟩
      simp [p2, p3]
    rw [hz, hall, Nat.zero_add]
  refine ⟨nr, ?_, e4, ?_, hcount, ?_⟩
  · rw [insert_codes_store]; exact e1
  · intro r hr
    rcases e5 r hr with ⟨p1, p2, p3, p4, p5, _⟩
    exact ⟨p1, p2, p3, p4, p5⟩
  · rw [insert_codes_fst2, hcount]

/-! ### Usage aggregation -/

theorem usageEntry_uid (users : List UserRow) (rows : List CodeRow) (uid : Int) :
    entryUid (usageEntry users rows uid) = uid := rfl

theorem usageEntry_cnt (users : List UserRow) (rows : List CodeRow) (uid : Int) :
    entryCnt (usageEntry users rows uid) =
      rows.countP (fun r => r.used_by == some uid) := rfl

theorem usageAgg_mem (users : List UserRow) (rows : List CodeRow) (e : UsageEntry) :
    e ∈ usageAgg users rows ↔
      ∃ uid, uid ∈ rows.filterMap (fun r => r.used_by) ∧
        e = usageEntry users rows uid := by
  rw [usageAgg]
  rw [List.mem_insertionSort]
  rw [List.mem_map]
  constructor
  · rintro ⟨uid, huid, rfl⟩
    rw [List.mem_insertionSort, mem_dedupFirst] at huid
    exact ⟨uid, huid, rfl⟩
  · rintro ⟨uid, huid, rfl⟩
    refine ⟨uid, ?_, rfl⟩
    rw [List.mem_insertionSort, mem_dedupFirst]
    exact huid

theorem orderedInsert_usageOrder (e : UsageEntry) :
    ∀ l : List UsageEntry, List.Sorted cntGe l → l.Pairwise usageOrder →
      (∀ y ∈ l, entryUid e < entryUid y) →
      (List.orderedInsert cntGe e l).Pairwise usageOrder := by
  intro l
  induction l with
  | nil => intro _ _ _; simp
  | cons x xs ih =>
    intro hs hp huid
    rcases List.pairwise_cons.mp hp with ⟨hx, hp'⟩
    rcases List.sorted_cons.mp hs with ⟨hsx, hs'⟩
    by_cases hge : cntGe e x
    · rw [List.orderedInsert_of_le _ _ hge]
      rw [List.pairwise_cons]
      refine ⟨?_, hp⟩
      intro y hy
      rcases List.mem_cons.mp hy with rfl | hy
      · have hge' : entryCnt y ≤ entryCnt e := hge
        rcases Nat.lt_or_ge (entryCnt y) (entryCnt e) with h | h
        · exact Or.inl h
        · exact Or.inr ⟨by omega, huid y (List.mem_cons_self _ _)⟩
      · have h1 : entryCnt y ≤ entryCnt x := hsx y hy
        have h2 : entryCnt x ≤ entryCnt e := hge
        rcases Nat.lt_or_ge (entryCnt y) (entryCnt e) with h | h
        · exact Or.inl h
        · exact Or.inr ⟨by omega, huid y (List.mem_cons_of_mem _ hy)⟩
    · have hins : List.orderedInsert cntGe e (x :: xs) =
        x :: List.orderedInsert cntGe e xs := by
        rw [List.orderedInsert]
        rw [if_neg hge]
      rw [hins, List.pairwise_cons]
      constructor
      · intro y hy
        rcases (List.mem_orderedInsert cntGe).mp hy with rfl | hy
        · have : entryCnt y < entryCnt x := by
            rw [cntGe] at hge
            omega
          exact Or.inl this
        · exact hx y hy
      · exact ih hs' hp' (fun y hy => huid y (List.mem_cons_of_mem _ hy))

theorem insertionSort_usageOrder :
    ∀ l : List UsageEntry, l.Pairwise (fun a b => entryUid a < entryUid b) →
      (List.insertionSort cntGe l).Pairwise usageOrder := by
  intro l
  induction l with
  | nil => intro _; simp
  | cons x xs ih =>
    intro hp
    rcases List.pairwise_cons.mp hp with ⟨hx, hp'⟩
    rw [List.insertionSort]
    apply orderedInsert_usageOrder
    · exact List.sorted_insertionSort cntGe xs
    · exact ih hp'
    · intro y hy
      rw [List.mem_insertionSort] at hy
      exact hx y hy

theorem uids_pairwise_lt (l : List Int) :
    (List.insertionSort (fun a b : Int => a ≤ b) (dedupFirst l)).Pairwise
      (fun a b => a < b) := by
  have hnd : (List.insertionSort (fun a b : Int => a ≤ b) (dedupFirst l)).Nodup :=
    ((List.perm_insertionSort _ _).nodup_iff).mpr (nodup_dedupFirst l)
  have hs : List.Sorted (fun a b : Int => a ≤ b)
      (List.insertionSort (fun a b : Int => a ≤ b) (dedupFirst l)) :=
    List.sorted_insertionSort _ _
  have := List.Pairwise.and hs hnd
  apply this.imp
  intro a b hab
  rcases hab with ⟨h1, h2⟩
  omega

theorem usageAgg_pairwise (users : List UserRow) (rows : List CodeRow) :
    (usageAgg users rows).Pairwise usageOrder := by
  rw [usageAgg]
  apply insertionSort_usageOrder
  rw [List.pairwise_map]
  apply (uids_pairwise_lt (rows.filterMap (fun r => r.used_by))).imp
  intro a b hab
  rw [usageEntry_uid, usageEntry_uid]
  exact hab

theorem usageAgg_entries (users : List UserRow) (rows : List CodeRow) :
    ∀ e ∈ usageAgg users rows,
      entryCnt e = rows.countP (fun r => r.used_by == some (entryUid e)) ∧
      e.2.1 = (lookupUser users (entryUid e)).bind (fun u => u.display_name) ∧
      e.2.2.1 = (lookupUser users (entryUid e)).bind (fun u => u.username) := by
  intro e he
  rcases (usageAgg_mem users rows e).mp he with ⟨uid, _, rfl⟩
  exact ⟨rfl, rfl, rfl⟩

theorem usageAgg_uid_iff (users : List UserRow) (rows : List CodeRow) (uid : Int) :
    (∃ e ∈ usageAgg users rows, entryUid e = uid) ↔
      ∃ r ∈ rows, r.used_by = some uid := by
  constructor
  · rintro ⟨e, he, rfl⟩
    rcases (usageAgg_mem users rows e).mp he with ⟨uid', h', rfl⟩
    rw [List.mem_filterMap] at h'
    rcases h' with ⟨r, hr, hru⟩
    exact ⟨r, hr, hru⟩
  · rintro ⟨r, hr, hru⟩
    refine ⟨usageEntry users rows uid, ?_, rfl⟩
    rw [usageAgg_mem]
    exact ⟨uid, List.mem_filterMap.mpr ⟨r, hr, hru⟩, rfl⟩

theorem usedRowsAll_countP (s : Store) (uid : Int) :
    (usedRowsAll s).countP (fun r => r.used_by == some uid) =
      s.codes.countP (fun r => r.is_used == 1 && r.used_by == some uid) := by
  rw [usedRowsAll, List.countP_filter]
  apply List.countP_congr
  intro r _
  simp only [Bool.and_eq_true, beq_iff_eq, bne_iff_ne, ne_eq]
  constructor
  · rintro ⟨h1, h2, _⟩
    exact ⟨h2, h1⟩
  · rintro ⟨h2, h1⟩
    exact ⟨h1, h2, by simp [h1]⟩

theorem usedRowsAll_mem_uid (s : Store) (uid : Int) :
    (∃ r ∈ usedRowsAll s, r.used_by = some uid) ↔
      ∃ r ∈ s.codes, r.is_used = 1 ∧ r.used_by = some uid := by
  rw [usedRowsAll]
  constructor
  · rintro ⟨r, hr, h1⟩
    rcases List.mem_filter.mp hr with ⟨hm, hb⟩
    simp only [Bool.and_eq_true, beq_iff_eq] at hb
    exact ⟨r, hm, hb.1, h1⟩
  · rintro ⟨r, hm, h2, h1⟩
    refine ⟨r, List.mem_filter.mpr ⟨hm, ?_⟩, h1⟩
    simp [h2, h1]

theorem usedRowsToday_countP (today : String) (s : Store) (uid : Int) :
    (usedRowsToday today s).countP (fun r => r.used_by == some uid) =
      s.codes.countP (fun r => r.is_used == 1 && r.used_by == some uid &&
        r.used_at.map sqliteDate == some today) := by
  rw [usedRowsToday, List.countP_filter]
  apply List.countP_congr
  intro r _
  simp only [Bool.and_eq_true, beq_iff_eq, bne_iff_ne, ne_eq]
  constructor
  · rintro ⟨h1, ⟨h2, _⟩, h4⟩
    exact ⟨⟨h2, h1⟩, h4⟩
  · rintro ⟨⟨h2, h1⟩, h4⟩
    exact ⟨h1, ⟨h2, by simp [h1]⟩, h4⟩

theorem usedRowsToday_mem_uid (today : String) (s : Store) (uid : Int) :
    (∃ r ∈ usedRowsToday today s, r.used_by = some uid) ↔
      ∃ r ∈ s.codes, r.is_used = 1 ∧ r.used_by = some uid ∧
        r.used_at.map sqliteDate = some today := by
  rw [usedRowsToday]
  constructor
  · rintro ⟨r, hr, h1⟩
    rcases List.mem_filter.mp hr with ⟨hm, hb⟩
    simp only [Bool.and_eq_true, beq_iff_eq, bne_iff_ne, ne_eq] at hb
    exact ⟨r, hm, hb.1.1, h1, hb.2⟩
  · rintro ⟨r, hm, h2, h1, h4⟩
    refine ⟨r, List.mem_filter.mpr ⟨hm, ?_⟩, h1⟩
    simp only [Bool.and_eq_true, beq_iff_eq, bne_iff_ne, ne_eq]
    exact ⟨⟨h2, by simp [h1]⟩, h4⟩

/-! ### Splitting and stripping -/

theorem splitOnChar_nil (sep : Char) : splitOnChar sep [] = [[]] := rfl

theorem splitOnChar_cons (sep c : Char) (l : List Char) :
    splitOnChar sep (c :: l) =
      (if c == sep then [] :: splitOnChar sep l
      else
        match splitOnChar sep l with
        | [] => [[c]]
        | p :: ps => (c :: p) :: ps) := rfl

theorem splitOnChar_ne_nil (sep : Char) : ∀ l : List Char, splitOnChar sep l ≠ [] := by
  intro l
  cases l with
  | nil => simp [splitOnChar_nil]
  | cons c l' =>
    rw [splitOnChar_cons]
    by_cases h : c == sep
    · rw [if_pos h]; simp
    · rw [if_neg h]
      rcases hs : splitOnChar sep l' with _ | ⟨p, ps⟩ <;> simp

theorem splitOnChar_cons_of_ne (sep c : Char) (l : List Char) (p : List Char)
    (ps : List (List Char)) (hc : (c == sep) = false) (h : splitOnChar sep l = p :: ps) :
    splitOnChar sep (c :: l) = (c :: p) :: ps := by
  rw [splitOnChar_cons, if_neg (by simp [hc]), h]

theorem splitOnChar_append_single (sep c : Char) :
    ∀ m : List Char, splitOnChar sep (m ++ [c]) =
      (if c == sep then splitOnChar sep m ++ [[]]
      else appendLast c (splitOnChar sep m)) := by
  intro m
  induction m with
  | nil =>
    rw [List.nil_append, splitOnChar_cons, splitOnChar_nil]
    by_cases h : c == sep
    · rw [if_pos h, if_pos h]; rfl
    · rw [if_neg h, if_neg h]; rfl
  | cons a m' ih =>
    rw [List.cons_append, splitOnChar_cons, ih, splitOnChar_cons]
    by_cases ha : a == sep
    · rw [if_pos ha, if_pos ha]
      by_cases hc : c == sep
      · rw [if_pos hc, if_pos hc, List.cons_append]
      · rw [if_neg hc, if_neg hc]
        rcases hs : splitOnChar sep m' with _ | ⟨p, ps⟩
        · exact absurd hs (splitOnChar_ne_nil sep m')
        · rfl
    · rw [if_neg ha, if_neg ha]
      by_cases hc : c == sep
      · rw [if_pos hc, if_pos hc]
        rcases hs : splitOnChar sep m' with _ | ⟨p, ps⟩
        · exact absurd hs (splitOnChar_ne_nil sep m')
        · rfl
      · rw [if_neg hc, if_neg hc]
        rcases hs : splitOnChar sep m' with _ | ⟨p, ps⟩
        · exact absurd hs (splitOnChar_ne_nil sep m')
        · cases ps with
          | nil => rfl
          | cons q ps' => rfl

theorem pyStrip_cons_ws (c : Char) (l : List Char) (h : pyIsSpace c = true) :
    pyStrip (c :: l) = pyStrip l := by
  rw [pyStrip, pyStrip, List.dropWhile_cons, if_pos h]

theorem dropWhile_eq_nil_append {p : Char → Bool} (l l' : List Char)
    (h : List.dropWhile p l = []) :
    List.dropWhile p (l ++ l') = List.dropWhile p l' := by
  rw [List.dropWhile_append, h]
  rfl

theorem dropWhile_ne_nil_append {p : Char → Bool} (l l' : List Char)
    (h : List.dropWhile p l ≠ []) :
    List.dropWhile p (l ++ l') = List.dropWhile p l ++ l' := by
  rw [List.dropWhile_append, if_neg (by simpa using h)]

theorem pyStrip_append_ws (c : Char) (l : List Char) (h : pyIsSpace c = true) :
    pyStrip (l ++ [c]) = pyStrip l := by
  rw [pyStrip, pyStrip]
  by_cases hd : List.dropWhile pyIsSpace l = []
  · rw [dropWhile_eq_nil_append l [c] hd, hd]
    rw [show List.dropWhile pyIsSpace [c] = List.dropWhile pyIsSpace [] by
      rw [List.dropWhile_cons, if_pos h]]
    rfl
  · rw [dropWhile_ne_nil_append l [c] hd, List.reverse_append,
      show ([c] : List Char).reverse = [c] from rfl, List.singleton_append,
      List.dropWhile_cons, if_pos h]

theorem ws_ne_comma (c : Char) (h : pyIsSpace c = true) : (c == ',') = false := by
  rcases Bool.eq_false_or_eq_true (c == ',') with hb | hb
  · exfalso
    have hcc : c = ',' := by simpa using hb
    rw [hcc] at h
    exact absurd h (by decide)
  · exact hb

theorem commaTokens_cons_ws (c : Char) (l : List Char) (h : pyIsSpace c = true) :
    commaTokens (c :: l) = commaTokens l := by
  have hc : (c == ',') = false := ws_ne_comma c h
  rcases hs : splitOnChar ',' l with _ | ⟨p, ps⟩
  · exact absurd hs (splitOnChar_ne_nil ',' l)
  · rw [commaTokens, commaTokens, splitOnChar_cons_of_ne ',' c l p ps hc hs, hs,
      List.map_cons, List.map_cons, pyStrip_cons_ws c p h]

theorem map_pyStrip_appendLast (c : Char) (h : pyIsSpace c = true) :
    ∀ L : List (List Char), L ≠ [] → (appendLast c L).map pyStrip = L.map pyStrip := by
  intro L
  induction L with
  | nil => intro h'; exact absurd rfl h'
  | cons p L' ih =>
    intro _
    cases L' with
    | nil =>
      rw [show appendLast c [p] = [p ++ [c]] from rfl, List.map_cons, List.map_cons,
        pyStrip_append_ws c p h]
    | cons q L'' =>
      rw [show appendLast c (p :: q :: L'') = p :: appendLast c (q :: L'') from rfl,
        List.map_cons, List.map_cons, ih (by simp)]

theorem commaTokens_append_ws (c : Char) (l : List Char) (h : pyIsSpace c = true) :
    commaTokens (l ++ [c]) = commaTokens l := by
  have hc : (c == ',') = false := ws_ne_comma c h
  rw [commaTokens, commaTokens, splitOnChar_append_single ',' c l,
    if_neg (by simp [hc]),
    map_pyStrip_appendLast c h _ (splitOnChar_ne_nil ',' l)]

theorem commaTokens_dropWhile (l : List Char) :
    commaTokens (List.dropWhile pyIsSpace l) = commaTokens l := by
  induction l with
  | nil => rfl
  | cons c l' ih =>
    rw [List.dropWhile_cons]
    by_cases h : pyIsSpace c
    · rw [if_pos h, ih, commaTokens_cons_ws c l' h]
    · rw [if_neg h]

theorem commaTokens_reverse_dropWhile :
    ∀ n : List Char,
      commaTokens (List.dropWhile pyIsSpace n).reverse = commaTokens n.reverse := by
  intro n
  induction n with
  | nil => rfl
  | cons c n' ih =>
    rw [List.dropWhile_cons]
    by_cases h : pyIsSpace c
    · rw [if_pos h, ih, List.reverse_cons, commaTokens_append_ws c n'.reverse h]
    · rw [if_neg h]

theorem commaTokens_pyStrip (l : List Char) :
    commaTokens (pyStrip l) = commaTokens l := by
  calc commaTokens (((l.dropWhile pyIsSpace).reverse.dropWhile pyIsSpace).reverse)
      = commaTokens (l.dropWhile pyIsSpace).reverse.reverse :=
        commaTokens_reverse_dropWhile (l.dropWhile pyIsSpace).reverse
    _ = commaTokens (l.dropWhile pyIsSpace) := by rw [List.reverse_reverse]
    _ = commaTokens l := commaTokens_dropWhile l

/-! ### Assembling the extraction -/

theorem extractStep_nil (acc : List (List Char) × List (List Char)) :
    extractStep acc [] = acc := by
  rw [extractStep, if_pos rfl]

theorem foldl_extractStep_filter :
    ∀ (ts : List (List Char)) (acc : List (List Char) × List (List Char)),
      ts.foldl extractStep acc = (ts.filter (fun p => p ≠ [])).foldl extractStep acc := by
  intro ts
  induction ts with
  | nil => intro acc; rfl
  | cons p ts' ih =>
    intro acc
    rw [List.foldl_cons, List.filter_cons]
    by_cases hp : p = []
    · rw [show extractStep acc p = acc by rw [extractStep, if_pos hp], ih,
        if_neg (by simp [hp])]
    · rw [if_pos (by simp [hp]), List.foldl_cons, ih]

theorem extractLine_eq (acc : List (List Char) × List (List Char)) (rl : List Char) :
    extractLine acc rl = (commaTokens rl).foldl extractStep acc := by
  rw [extractLine]
  by_cases hline : pyStrip rl = []
  · rw [if_pos hline]
    have h0 : commaTokens rl = [] := by
      rw [← commaTokens_pyStrip rl, hline]
      rfl
    rw [h0]
    rfl
  · rw [if_neg hline]
    rw [foldl_extractStep_filter]
    have h2 : ((splitOnChar ',' (pyStrip rl)).map pyStrip).filter (fun p => p ≠ []) =
        commaTokens rl := commaTokens_pyStrip rl
    rw [h2]

theorem foldl_extractLine_flat :
    ∀ (lines : List (List Char)) (acc : List (List Char) × List (List Char)),
      lines.foldl extractLine acc = (lines.flatMap commaTokens).foldl extractStep acc := by
  intro lines
  induction lines with
  | nil => intro acc; rfl
  | cons rl lines' ih =>
    intro acc
    rw [List.foldl_cons, List.flatMap_cons, List.foldl_append, extractLine_eq, ih]

theorem foldl_extractStep_pair :
    ∀ (ts : List (List Char)) (d : List (List Char)), (∀ p ∈ ts, p ≠ []) →
      (ts.foldl extractStep (d, d)).2 = ts.foldl dedupStep d := by
  intro ts
  induction ts with
  | nil => intro d _; rfl
  | cons p ts' ih =>
    intro d hne
    rw [List.foldl_cons, List.foldl_cons]
    have hp : p ≠ [] := hne p (List.mem_cons_self _ _)
    have hstep : extractStep (d, d) p =
        (if p ∈ d then (d, d) else (d ++ [p], d ++ [p])) := by
      rw [extractStep, if_neg hp]
    rw [hstep, dedupStep]
    by_cases hmem : p ∈ d
    · rw [if_pos hmem, if_pos hmem]
      exact ih d (fun q hq => hne q (List.mem_cons_of_mem _ hq))
    · rw [if_neg hmem, if_neg hmem]
      exact ih (d ++ [p]) (fun q hq => hne q (List.mem_cons_of_mem _ hq))

theorem commaTokens_mem_ne_nil (l : List Char) : ∀ p ∈ commaTokens l, p ≠ [] := by
  intro p hp
  rcases List.mem_filter.mp hp with ⟨_, hb⟩
  simpa using hb

theorem spec_tokens_eq (lines : List (List Char)) :
    ((lines.flatMap (splitOnChar ',')).map pyStrip).filter (fun p => p ≠ []) =
      lines.flatMap commaTokens := by
  rw [List.map_flatMap, List.filter_flatMap]
  rfl

/-! ### Claim theorems -/

/-- C1: on any store whose rows carry strictly increasing ids (an invariant
of every reachable store), `get_and_mark_next_unused` selects the unused row
with the smallest id among currently unused rows, marks exactly that row
used while stamping `used_by` and `used_at` in the same operation, and
returns that row's code value; iterating the allocation sequentially yields
the unused codes in insertion-id order (FIFO). -/
theorem c1_allocate_min_id_fifo (s : Store) (u : Int) (t : String)
    (hpw : s.codes.Pairwise (fun a b => a.id < b.id)) :
    (∀ m : CodeRow, minIdUnused s.codes = some m →
      m ∈ s.codes ∧ m.is_used = 0 ∧
      (∀ x ∈ s.codes, x.is_used = 0 → m.id ≤ x.id) ∧
      (get_and_mark_next_unused u t s).1 = some m.code ∧
      ∃ l1 l2, s.codes = l1 ++ m :: l2 ∧
        ((get_and_mark_next_unused u t s).2).codes =
          l1 ++ ({ m with is_used := 1, used_by := some u, used_at := some t } :
            CodeRow) :: l2) ∧
    (∀ k : Nat, (allocRun k u t s).1 =
      ((s.codes.filter (fun r => r.is_used == 0)).map (fun r => r.code)).take k) := by
  constructor
  · intro m hm
    rcases minIdUnused_spec s.codes m hm with ⟨hmem, hun, hmin⟩
    rcases List.append_of_mem hmem with ⟨l1, l2, hdec⟩
    refine ⟨hmem, hun, hmin, ?_, l1, l2, hdec, ?_⟩
    · rw [get_and_mark_eq_some u t s m hm]
    · rw [get_and_mark_eq_some u t s m hm]
      dsimp only
      rw [hdec, List.map_append, List.map_cons]
      have hm1 : markRow u t m.id m =
          { m with is_used := 1, used_by := some u, used_at := some t } := by
        rw [markRow, if_pos]
        simp [hun]
      have hpw' := hpw
      rw [hdec] at hpw'
      rcases List.pairwise_append.mp hpw' with ⟨_, hp2, hcross⟩
      have hl1 : l1.map (markRow u t m.id) = l1 := by
        apply map_eq_self_of_forall
        intro x hx
        exact markRow_not_matching u t m.id x
          (by have := hcross x hx m (List.mem_cons_self _ _); omega)
      have hl2 : l2.map (markRow u t m.id) = l2 := by
        apply map_eq_self_of_forall
        intro x hx
        exact markRow_not_matching u t m.id x
          (by have := (List.pairwise_cons.mp hp2).1 x hx; omega)
      rw [hm1, hl1, hl2]
  · intro k
    exact allocRun_fifo u t k s hpw

/-- Witness for C1 at a concrete store: the first allocation returns the
oldest unused code and three sequential allocations return the codes in
insertion order. -/
theorem c1_witness :
    (get_and_mark_next_unused 9 "T1" demoStore).1 = some "A1" ∧
    (allocRun 3 9 "T1" demoStore).1 = ["A1", "A2", "A3"] := by
  constructor
  · exact ((c1_allocate_min_id_fifo demoStore 9 "T1" (by decide)).1
      ⟨1, "A1", 0, 1, "T0", none, none⟩ (by decide)).2.2.2.1
  · have h := (c1_allocate_min_id_fifo demoStore 9 "T1" (by decide)).2 3
    rw [h]
    decide

/-- C3: on any store whose rows are all marked 0 or 1 (an invariant of every
reachable store), `reset_all_codes` reverts every used row to unused with
`used_by`/`used_at` cleared, leaves unused rows untouched, and returns the
number of previously used rows together with the total row count, which the
resulting store's `count_unused` also equals. -/
theorem c3_reset_all (s : Store)
    (h01 : ∀ r ∈ s.codes, r.is_used = 0 ∨ r.is_used = 1) :
    (reset_all_codes s).1.1 = s.codes.countP (fun r => r.is_used == 1) ∧
    (reset_all_codes s).1.2 = s.codes.length ∧
    count_unused (reset_all_codes s).2 = s.codes.length ∧
    ((reset_all_codes s).2).codes.length = s.codes.length ∧
    ((reset_all_codes s).2).codes = s.codes.map (fun r =>
      if r.is_used = 1 then { r with is_used := 0, used_by := none, used_at := none }
      else r) := by
  have hall : ∀ r ∈ s.codes.map resetRow, (r.is_used == 0) = true := by
    intro r hr
    rcases List.mem_map.mp hr with ⟨r0, hr0, rfl⟩
    rw [resetRow]
    by_cases hc : r0.is_used == 1
    · rw [if_pos hc]; rfl
    · rw [if_neg hc]
      rcases h01 r0 hr0 with h | h
      · simp [h]
      · exact absurd (by simp [h]) hc
  have hcnt : (s.codes.map resetRow).countP (fun r => r.is_used == 0) =
      (s.codes.map resetRow).length := List.countP_eq_length.mpr hall
  refine ⟨rfl, ?_, ?_, by simp [reset_all_codes_store], ?_⟩
  · show (s.codes.map resetRow).countP (fun r => r.is_used == 0) = s.codes.length
    rw [hcnt, List.length_map]
  · show (s.codes.map resetRow).countP (fun r => r.is_used == 0) = s.codes.length
    rw [hcnt, List.length_map]
  · rw [reset_all_codes_store]
    dsimp only
    apply List.map_congr_left
    intro r _
    rw [resetRow]
    by_cases hc : r.is_used = 1
    · rw [if_pos (by simp [hc]), if_pos hc]
    · rw [if_neg (by simp [hc]), if_neg hc]

/-- Witness for C3 at a concrete store with one used and two unused rows. -/
theorem c3_witness :
    (reset_all_codes demoUsed).1.1 = demoUsed.codes.countP (fun r => r.is_used == 1) ∧
    (reset_all_codes demoUsed).1.2 = demoUsed.codes.length ∧
    count_unused (reset_all_codes demoUsed).2 = demoUsed.codes.length ∧
    ((reset_all_codes demoUsed).2).codes.length = demoUsed.codes.length ∧
    ((reset_all_codes demoUsed).2).codes = demoUsed.codes.map (fun r =>
      if r.is_used = 1 then { r with is_used := 0, used_by := none, used_at := none }
      else r) :=
  c3_reset_all demoUsed (by decide)

/-- C4: `clear_all_codes` deletes every code row, used and unused alike,
returns the prior total row count, and afterwards `count_unused` is 0 and
both usage reports are empty. -/
theorem c4_clear_all (s : Store) :
    (clear_all_codes s).1 = s.codes.length ∧
    ((clear_all_codes s).2).codes = [] ∧
    count_unused (clear_all_codes s).2 = 0 ∧
    usage_counts_with_names (clear_all_codes s).2 = [] ∧
    (∀ today : String, usage_counts_with_names_today today (clear_all_codes s).2 = []) :=
  ⟨rfl, rfl, rfl, rfl, fun _ => rfl⟩

/-- C6: when no unused row exists, allocation returns the no-result outcome
with the store unchanged, and when an unused row exists it returns a code
value. -/
theorem c6_exhausted_returns_none (s : Store) (u : Int) (t : String) :
    ((∀ r ∈ s.codes, r.is_used ≠ 0) → get_and_mark_next_unused u t s = (none, s)) ∧
    ((∃ r ∈ s.codes, r.is_used = 0) →
      ((get_and_mark_next_unused u t s).1).isSome = true) := by
  constructor
  · intro hall
    exact get_and_mark_eq_none u t s ((minIdUnused_eq_none s.codes).mpr hall)
  · rintro ⟨r, hr, hr0⟩
    rcases hm : minIdUnused s.codes with _ | m
    · exact absurd hr0 ((minIdUnused_eq_none s.codes).mp hm r hr)
    · rw [get_and_mark_eq_some u t s m hm]
      rfl

/-- Witness for C6: an exhausted store yields the no-result outcome
unchanged; a store with unused rows yields a code. -/
theorem c6_witness :
    get_and_mark_next_unused 5 "T9" usedOnlyStore = (none, usedOnlyStore) ∧
    ((get_and_mark_next_unused 5 "T9" demoStore).1).isSome = true :=
  ⟨(c6_exhausted_returns_none usedOnlyStore 5 "T9").1 (by decide),
   (c6_exhausted_returns_none demoStore 5 "T9").2 (by decide)⟩

/-- C10: in every reachable store each row's `is_used` field is exactly 0
or 1, so `count_unused` plus `total_used_count` equals the total number of
code rows. -/
theorem c10_partition (s : Store) (h : Reachable s) :
    (∀ r ∈ s.codes, r.is_used = 0 ∨ r.is_used = 1) ∧
    count_unused s + total_used_count s = s.codes.length := by
  have hinv := reachable_inv s h
  exact ⟨hinv.1, countP_zero_one_partition s.codes hinv.1⟩

/-- Witness for C10 at a concrete reachable store with one used and two
unused rows. -/
theorem c10_witness :
    count_unused demoStore2 + total_used_count demoStore2 = demoStore2.codes.length :=
  (c10_partition demoStore2
    (Reachable.upsert 2 "Ann" (some "ann") "T2"
      (Reachable.alloc 2 "T1"
        (Reachable.insert ["A1", "A2", "A1", "A3"] 1 "T0" Reachable.init)))).2

/-- C5: in every reachable store, a row marked used has both `used_by` and
`used_at` set (the transition and the stamping are one operation), and
`reset_all_codes` returns every used row to unused with both fields null. -/
theorem c5_used_fields_set (s : Store) (h : Reachable s) :
    (∀ r ∈ s.codes, r.is_used = 1 → r.used_by ≠ none ∧ r.used_at ≠ none) ∧
    (∀ r ∈ s.codes, r.is_used = 1 →
      ({ r with is_used := 0, used_by := none, used_at := none } : CodeRow) ∈
        ((reset_all_codes s).2).codes) := by
  constructor
  · exact (reachable_inv s h).2.1
  · intro r hr hu
    rw [reset_all_codes_store]
    dsimp only
    have : resetRow r =
        { r with is_used := 0, used_by := none, used_at := none } := by
      rw [resetRow, if_pos (by simp [hu])]
    rw [← this]
    exact List.mem_map_of_mem resetRow hr

/-- Witness for C5 at the used row of a concrete reachable store. -/
theorem c5_witness :
    (⟨1, "A1", 1, 1, "T0", some 2, some "T1"⟩ : CodeRow).used_by ≠ none ∧
    (⟨1, "A1", 1, 1, "T0", some 2, some "T1"⟩ : CodeRow).used_at ≠ none ∧
    ({ (⟨1, "A1", 1, 1, "T0", some 2, some "T1"⟩ : CodeRow) with
        is_used := 0, used_by := none, used_at := none } : CodeRow) ∈
      ((reset_all_codes demoStore2).2).codes := by
  have h := c5_used_fields_set demoStore2
    (Reachable.upsert 2 "Ann" (some "ann") "T2"
      (Reachable.alloc 2 "T1"
        (Reachable.insert ["A1", "A2", "A1", "A3"] 1 "T0" Reachable.init)))
  refine ⟨(h.1 _ (by decide) rfl).1, (h.1 _ (by decide) rfl).2, h.2 _ (by decide) rfl⟩

/-- C2 (amended): provided no pre-existing row carries this call's
`(uploaded_by, uploaded_at)` timestamp marker, `insert_codes` deduplicates
the batch preserving first occurrences, appends exactly the unique
candidates whose value is not yet in the store, and returns
`(inserted_count, duplicate_count)` with `inserted_count` the number of rows
newly created and `inserted_count + duplicate_count` the number of unique
candidates. -/
theorem c2_insert_batch (codes : List String) (u : Int) (t : String) (s : Store)
    (hfresh : ∀ r ∈ s.codes, ¬(r.uploaded_at = t ∧ r.uploaded_by = u)) :
    ∃ newRows : List CodeRow,
      (insert_codes codes u t s).2.codes = s.codes ++ newRows ∧
      newRows.map (fun r => r.code) =
        (dedupFirst codes).filter (fun c => !hasValue s.codes c) ∧
      (∀ r ∈ newRows, r.is_used = 0 ∧ r.uploaded_by = u ∧ r.uploaded_at = t) ∧
      (insert_codes codes u t s).1.1 = newRows.length ∧
      (insert_codes codes u t s).1.1 + (insert_codes codes u t s).1.2 =
        (dedupFirst codes).length ∧
      (insert_codes codes u t s).1.2 = (dedupFirst codes).length - newRows.length := by
  rcases insert_codes_spec codes u t s hfresh with ⟨nr, e1, e2, e3, e4, e5⟩
  have hle : nr.length ≤ (dedupFirst codes).length := by
    have hlen := congrArg List.length e2
    rw [List.length_map] at hlen
    rw [hlen]
    exact List.length_filter_le _ _
  refine ⟨nr, e1, e2,
    fun r hr => ⟨(e3 r hr).1, (e3 r hr).2.1, (e3 r hr).2.2.1⟩, e4, ?_, e5⟩
  rw [e4, e5]
  omega

/-- Counterexample to C2 as stated: with a pre-existing row sharing the
call's `(uploaded_by, uploaded_at)` marker, the call creates one row yet
reports `inserted_count = 2` and `duplicate_count = 0`, so
`inserted_count + duplicate_count` (2) differs from the number of unique
candidates (1) and `inserted_count` differs from the rows newly created. -/
theorem c2_counterexample :
    (insert_codes ["b"] 1 "T" ⟨[⟨1, "a", 0, 1, "T", none, none⟩], [], 2⟩).1.1 = 2 ∧
    (insert_codes ["b"] 1 "T" ⟨[⟨1, "a", 0, 1, "T", none, none⟩], [], 2⟩).1.2 = 0 ∧
    ((insert_codes ["b"] 1 "T" ⟨[⟨1, "a", 0, 1, "T", none, none⟩], [], 2⟩).2).codes.length
      = 2 ∧
    (dedupFirst ["b"]).length = 1 := by decide

/-- Witness for C2 on a fresh store. -/
theorem c2_witness :
    (insert_codes ["A1", "A2", "A1"] 1 "T" initStore).1.1 +
      (insert_codes ["A1", "A2", "A1"] 1 "T" initStore).1.2 =
      (dedupFirst ["A1", "A2", "A1"]).length := by
  rcases c2_insert_batch ["A1", "A2", "A1"] 1 "T" initStore (by decide)
    with ⟨nr, _, _, _, _, h5, _⟩
  exact h5

/-- C7 (amended): reachable stores never hold two rows with the same code
value; after two successive insert calls both containing a value `v`, the
store holds at most one row with value `v` (at most one more than before
the calls), and the second call creates no row for `v`; provided the second
call's timestamp marker matches no row already present, the second call
reports at least one duplicate. -/
theorem c7_value_uniqueness :
    (∀ s : Store, Reachable s → (s.codes.map (fun r => r.code)).Nodup) ∧
    (∀ (v : String) (b1 b2 : List String) (u1 u2 : Int) (t1 t2 : String) (s : Store),
      v ∈ b1 → v ∈ b2 →
      countVal v ((insert_codes b2 u2 t2 (insert_codes b1 u1 t1 s).2).2).codes ≤
        max (countVal v s.codes) 1 ∧
      countVal v ((insert_codes b2 u2 t2 (insert_codes b1 u1 t1 s).2).2).codes =
        countVal v ((insert_codes b1 u1 t1 s).2).codes ∧
      ((∀ r ∈ ((insert_codes b1 u1 t1 s).2).codes,
          ¬(r.uploaded_at = t2 ∧ r.uploaded_by = u2)) →
        1 ≤ (insert_codes b2 u2 t2 (insert_codes b1 u1 t1 s).2).1.2)) := by
  constructor
  · intro s h
    exact (reachable_inv s h).2.2.1
  · intro v b1 b2 u1 u2 t1 t2 s hv1 hv2
    have hval1 : hasValue ((insert_codes b1 u1 t1 s).2).codes v = true := by
      rw [insert_codes_store]
      exact insertLoop_hasValue_of_mem u1 t1 v (dedupFirst b1) s (mem_dedupFirst.mpr hv1)
    have heq : countVal v ((insert_codes b2 u2 t2 (insert_codes b1 u1 t1 s).2).2).codes =
        countVal v ((insert_codes b1 u1 t1 s).2).codes := by
      rw [insert_codes_store (s := (insert_codes b1 u1 t1 s).2)]
      exact insertLoop_countVal_of_hasValue u2 t2 v (dedupFirst b2) _ hval1
    refine ⟨?_, heq, ?_⟩
    · rw [heq, insert_codes_store]
      exact insertLoop_countVal_le u1 t1 v (dedupFirst b1) s (nodup_dedupFirst b1)
    · intro hfresh
      rcases insert_codes_spec b2 u2 t2 (insert_codes b1 u1 t1 s).2 hfresh
        with ⟨nr, _, e2, _, e4, e5⟩
      have hlt : nr.length < (dedupFirst b2).length := by
        have hlen := congrArg List.length e2
        rw [List.length_map] at hlen
        rw [hlen, List.length_filter_lt_length_iff_exists]
        exact ⟨v, mem_dedupFirst.mpr hv2, by simp [hval1]⟩
      rw [e5]
      omega

/-- Counterexample to C7 as stated: `"v"` occurs in both batches and is
already present when the second call runs, yet because the two calls share
the same timestamp marker the second call reports `duplicate_count = 0`,
not counting `"v"` as a duplicate. -/
theorem c7_counterexample :
    hasValue ((insert_codes ["v"] 1 "T" initStore).2).codes "v" = true ∧
    (insert_codes ["v", "w"] 1 "T" (insert_codes ["v"] 1 "T" initStore).2).1.2 = 0 := by
  decide

/-- Witness for C7 on concrete batches with distinct timestamps. -/
theorem c7_witness :
    countVal "v"
        ((insert_codes ["v", "w"] 1 "T2" (insert_codes ["v"] 1 "T1" initStore).2).2).codes ≤
      max (countVal "v" initStore.codes) 1 ∧
    1 ≤ (insert_codes ["v", "w"] 1 "T2" (insert_codes ["v"] 1 "T1" initStore).2).1.2 := by
  have h := c7_value_uniqueness.2 "v" ["v"] ["v", "w"] 1 1 "T1" "T2" initStore
    (by decide) (by decide)
  exact ⟨h.1, h.2.2 (by decide)⟩

/-- C8: each usage report (all-time and current-UTC-day variants) carries
one entry per distinct `used_by` among the qualifying used rows, each entry
holding that user's count of qualifying rows and the display fields joined
from the user registry (null when the user is absent), and the report is
ordered by count descending with ties broken deterministically by ascending
user id. -/
theorem c8_usage_report (s : Store) (today : String) :
    ((∀ uid : Int, (∃ e ∈ usage_counts_with_names s, entryUid e = uid) ↔
        ∃ r ∈ s.codes, r.is_used = 1 ∧ r.used_by = some uid) ∧
     (∀ e ∈ usage_counts_with_names s,
        entryCnt e = s.codes.countP (fun r => r.is_used == 1 &&
          r.used_by == some (entryUid e)) ∧
        e.2.1 = (lookupUser s.users (entryUid e)).bind (fun u => u.display_name) ∧
        e.2.2.1 = (lookupUser s.users (entryUid e)).bind (fun u => u.username)) ∧
     (usage_counts_with_names s).Pairwise usageOrder) ∧
    ((∀ uid : Int, (∃ e ∈ usage_counts_with_names_today today s, entryUid e = uid) ↔
        ∃ r ∈ s.codes, r.is_used = 1 ∧ r.used_by = some uid ∧
          r.used_at.map sqliteDate = some today) ∧
     (∀ e ∈ usage_counts_with_names_today today s,
        entryCnt e = s.codes.countP (fun r => r.is_used == 1 &&
          r.used_by == some (entryUid e) &&
          r.used_at.map sqliteDate == some today) ∧
        e.2.1 = (lookupUser s.users (entryUid e)).bind (fun u => u.display_name) ∧
        e.2.2.1 = (lookupUser s.users (entryUid e)).bind (fun u => u.username)) ∧
     (usage_counts_with_names_today today s).Pairwise usageOrder) := by
  refine ⟨⟨?_, ?_, ?_⟩, ?_, ?_, ?_⟩
  · intro uid
    rw [usage_counts_with_names, usageAgg_uid_iff]
    exact usedRowsAll_mem_uid s uid
  · intro e he
    rw [usage_counts_with_names] at he
    rcases usageAgg_entries s.users (usedRowsAll s) e he with ⟨h1, h2, h3⟩
    exact ⟨by rw [h1, usedRowsAll_countP], h2, h3⟩
  · rw [usage_counts_with_names]
    exact usageAgg_pairwise _ _
  · intro uid
    rw [usage_counts_with_names_today, usageAgg_uid_iff]
    exact usedRowsToday_mem_uid today s uid
  · intro e he
    rw [usage_counts_with_names_today] at he
    rcases usageAgg_entries s.users (usedRowsToday today s) e he with ⟨h1, h2, h3⟩
    exact ⟨by rw [h1, usedRowsToday_countP], h2, h3⟩
  · rw [usage_counts_with_names_today]
    exact usageAgg_pairwise _ _

/-- Witness for C8 at a concrete store: both report variants are sorted by
the asserted ordering. -/
theorem c8_witness :
    (usage_counts_with_names demoStore2).Pairwise usageOrder ∧
    (usage_counts_with_names_today "T1" demoStore2).Pairwise usageOrder :=
  ⟨(c8_usage_report demoStore2 "T1").1.2.2, (c8_usage_report demoStore2 "T1").2.2.2⟩

/-- C9: the adapter's code extraction equals the spec's description — split
the text on line breaks and commas, trim whitespace from every token, drop
empty tokens, and keep the first occurrence of each token in order
(comparing tokens case-sensitively, as list equality on characters does). -/
theorem c9_extract_codes (text : List Char) :
    extract_codes_from_text text = extractCodesSpec text := by
  rw [extract_codes_from_text, extractCodesSpec]
  rw [foldl_extractLine_flat, spec_tokens_eq]
  have hne : ∀ p ∈ (splitOnChar '\n' (normalizeNewlines text)).flatMap commaTokens,
      p ≠ [] := by
    intro p hp
    rcases List.mem_flatMap.mp hp with ⟨rl, _, hprl⟩
    exact commaTokens_mem_ne_nil rl p hprl
  rw [foldl_extractStep_pair _ [] hne]
  rfl
